import Mathlib

set_option exponentiation.threshold 5000
set_option maxRecDepth 8000

/-!
# Verification of the floating-point generation core of `rapid`

A shallow embedding of `floats.go` from the `rapid` property-based testing
library, together with spec-modelled versions of the primitives the file calls
(`bitStream`, `genUintRange`, `genIntRange`, `genUintRangeWidth`,
`flipBiasedCoin`, the `Filter` combinator) whose implementations are not part
of the provided sources.

Machine floats are embedded as their IEEE-754 bit patterns (natural numbers
below `2 ^ 64` resp. `2 ^ 32`), with an exact integer valuation: a float64 is
valued in units of `2 ^ (-1074)` (the smallest subnormal), a float32 in units
of `2 ^ (-149)`, which makes every finite value an integer while preserving
order and exact equality.  Infinities are mapped to integers strictly beyond
every finite value of the format, so the order on valuations agrees with the
IEEE comparison on all non-NaN inputs (with `-0` and `+0` identified, as in
Go's `<=`).
-/

namespace Rapid

/-! ### 64-bit integer helpers -/

/-- Truncation to 64 bits, modelling Go `uint64` overflow. -/
def wrap64 (n : ℕ) : ℕ := n % 2 ^ 64

/-- Modelled from the spec: the repository-internal helper `bitmask64(n)`
(`1<<n - 1`), a mask of `n` low bits; every call site in `floats.go` passes
`n ≤ 63`, where no 64-bit wrap occurs. -/
def bitmask64 (n : ℕ) : ℕ := 2 ^ n - 1

/-- Go conversion `uint64(e)` of a signed integer (two's complement wrap). -/
def u64ofInt (i : ℤ) : ℕ := (i % (2 ^ 64 : ℤ)).toNat

/-! ### IEEE-754 bit-pattern embedding -/

def float32ExpBits : ℕ := 8
def float32SignifBits : ℕ := 23
def float64ExpBits : ℕ := 11
def float64SignifBits : ℕ := 52
def floatExpLabel : String := "floatexp"
def floatSignifLabel : String := "floatsignif"

/-- The raw (biased) exponent field of a float64 bit pattern. -/
def f64ExpField (u : ℕ) : ℕ := u / 2 ^ 52 % 2 ^ 11

/-- The significand (mantissa) field of a float64 bit pattern. -/
def f64SignifField (u : ℕ) : ℕ := u % 2 ^ 52

/-- The sign bit of a float64 bit pattern. -/
def f64SignBit (u : ℕ) : ℕ := u / 2 ^ 63 % 2

def f64IsNaN (u : ℕ) : Bool :=
  f64ExpField u = 2047 ∧ f64SignifField u ≠ 0

/-- Magnitude of a float64 bit pattern in units of `2 ^ (-1074)`: a subnormal
with mantissa `m` is worth `m`, a normal with biased exponent `r` is worth
`(2 ^ 52 + m) * 2 ^ (r - 1)`.  Infinity (and NaN, which every use excludes)
is mapped to `2 ^ 2099`, strictly beyond every finite float64 (whose scaled
magnitude is below `2 ^ 2098`). -/
def f64Mag (u : ℕ) : ℕ :=
  if f64ExpField u = 0 then f64SignifField u
  else if f64ExpField u = 2047 then 2 ^ 2099
  else (2 ^ 52 + f64SignifField u) * 2 ^ (f64ExpField u - 1)

/-- Exact value of a non-NaN float64 bit pattern, in units of `2 ^ (-1074)`. -/
def f64Val (u : ℕ) : ℤ :=
  if f64SignBit u = 1 then -(f64Mag u : ℤ) else (f64Mag u : ℤ)

/-- Go float64 negation `-f`: flip the sign bit. -/
def f64Neg (u : ℕ) : ℕ := if u < 2 ^ 63 then u + 2 ^ 63 else u - 2 ^ 63

/-- Bit pattern of `0.0`. -/
def f64zero : ℕ := 0

/-- Go `a <= b` on float64: false whenever an operand is NaN. -/
def f64le (a b : ℕ) : Bool :=
  !f64IsNaN a && !f64IsNaN b && decide (f64Val a ≤ f64Val b)

/-- Go `a == b` on float64: false whenever an operand is NaN. -/
def f64eq (a b : ℕ) : Bool :=
  !f64IsNaN a && !f64IsNaN b && decide (f64Val a = f64Val b)

/-- The raw (biased) exponent field of a float32 bit pattern. -/
def f32ExpField (u : ℕ) : ℕ := u / 2 ^ 23 % 2 ^ 8

/-- The significand field of a float32 bit pattern. -/
def f32SignifField (u : ℕ) : ℕ := u % 2 ^ 23

def f32SignBit (u : ℕ) : ℕ := u / 2 ^ 31 % 2

def f32IsNaN (u : ℕ) : Bool :=
  f32ExpField u = 255 ∧ f32SignifField u ≠ 0

/-- Magnitude of a float32 bit pattern in units of `2 ^ (-149)` (infinity
mapped beyond every finite float32, whose scaled magnitude is below
`2 ^ 277`). -/
def f32Mag (u : ℕ) : ℕ :=
  if f32ExpField u = 0 then f32SignifField u
  else if f32ExpField u = 255 then 2 ^ 278
  else (2 ^ 23 + f32SignifField u) * 2 ^ (f32ExpField u - 1)

/-- Exact value of a non-NaN float32 bit pattern, in units of `2 ^ (-149)`. -/
def f32Val (u : ℕ) : ℤ :=
  if f32SignBit u = 1 then -(f32Mag u : ℤ) else (f32Mag u : ℤ)

/-- Go conversion `float64(f)` of a float32 bit pattern (exact widening,
normalizing float32 subnormals). -/
def f32ToF64 (w : ℕ) : ℕ :=
  let s := f32SignBit w
  let e := f32ExpField w
  let m := f32SignifField w
  if e = 255 then s * 2 ^ 63 + 2047 * 2 ^ 52 + m * 2 ^ 29
  else if e = 0 then
    if m = 0 then s * 2 ^ 63
    else
      let k := Nat.log2 m
      s * 2 ^ 63 + (k + 874) * 2 ^ 52 + (m - 2 ^ k) * 2 ^ (52 - k)
  else s * 2 ^ 63 + (e + 896) * 2 ^ 52 + m * 2 ^ 29

/-! ### Bit stream

Modelled from the spec (§4.1): the `bitStream` implementation is not among the
provided sources.  A stream is an infinite tape of pseudorandom machine words
with a cursor, plus a trace recording every draw and every
`beginGroup`/`endGroup` call; `beginGroup` returns a token which the matching
`endGroup` receives.  Tokens are modelled as positions in the trace. -/

inductive BSEvent where
  | draw : ℕ → BSEvent
  | begin : String → ℕ → Bool → BSEvent
  | close : ℕ → Bool → BSEvent
deriving DecidableEq, Repr

structure BitStream where
  tape : ℕ → ℕ
  pos : ℕ
  trace : List BSEvent

/-- Modelled from the spec: draw one machine word from the stream. -/
def drawWord (s : BitStream) : ℕ × BitStream :=
  (s.tape s.pos,
   { s with pos := s.pos + 1, trace := s.trace ++ [BSEvent.draw (s.tape s.pos)] })

/-- Modelled from the spec: `beginGroup(label, isCall)` returns a token. -/
def beginGroup (s : BitStream) (label : String) (isCall : Bool) : ℕ × BitStream :=
  (s.trace.length,
   { s with trace := s.trace ++ [BSEvent.begin label s.trace.length isCall] })

/-- Modelled from the spec: `endGroup(token, discardIfEmpty)`. -/
def endGroup (s : BitStream) (tok : ℕ) (discard : Bool) : BitStream :=
  { s with trace := s.trace ++ [BSEvent.close tok discard] }

/-- A trace is well nested when begin/close events pair up like brackets,
each close naming the token of the innermost open group. -/
def wellNestedFrom : List ℕ → List BSEvent → Bool
  | [], [] => true
  | _ :: _, [] => false
  | stk, BSEvent.draw _ :: rest => wellNestedFrom stk rest
  | stk, BSEvent.begin _ t _ :: rest => wellNestedFrom (t :: stk) rest
  | [], BSEvent.close _ _ :: _ => false
  | t :: stk, BSEvent.close t' _ :: rest => t = t' && wellNestedFrom stk rest

def wellNested (tr : List BSEvent) : Bool := wellNestedFrom [] tr

/-! ### Primitive decoders

Modelled from the spec (§4.2): `genUintRange(source, lo, hi, bias)` returns a
value in `[lo, hi]` (`none` models the assertion failure on an inverted
range); `genIntRange` is its signed analogue; `genUintRangeWidth` additionally
reports a bit width; `flipBiasedCoin(source, p)` is exact (consumes no
entropy) for `p ≤ 0` and `p ≥ 1`.  The distribution of draws is irrelevant to
the claims and is modelled as a reduction of the next tape word. -/

def genUintRange (s : BitStream) (lo hi : ℕ) (bias : Bool) :
    Option (ℕ × BitStream) :=
  if lo ≤ hi then some (lo + (drawWord s).1 % (hi - lo + 1), (drawWord s).2)
  else none

def genIntRange (s : BitStream) (lo hi : ℤ) (bias : Bool) :
    Option (ℤ × BitStream) :=
  if lo ≤ hi then some (lo + ((drawWord s).1 : ℤ) % (hi - lo + 1), (drawWord s).2)
  else none

def genUintRangeWidth (s : BitStream) (lo hi : ℕ) (bias : Bool) :
    Option (ℕ × ℕ × BitStream) :=
  if lo ≤ hi then
    some (lo + (drawWord s).1 % (hi - lo + 1),
      (drawWord (drawWord s).2).1, (drawWord (drawWord s).2).2)
  else none

def flipBiasedCoin (s : BitStream) (p : ℚ) : Bool × BitStream :=
  if p ≤ 0 then (false, s)
  else if 1 ≤ p then (true, s)
  else
    let d := drawWord s
    (d.1 % 2 = 1, d.2)

/-! ### floats.go -/

/-- `ufloatFracBits` from floats.go (the `e` parameter is `int32` there). -/
def ufloatFracBits (e : ℤ) (signifBits : ℕ) : ℕ :=
  if e ≤ 0 then signifBits
  else if e.toNat < signifBits then signifBits - e.toNat
  else 0

/-- `ufloatParts` from floats.go: strip the sign, clamp the unbiased exponent
to the target width's normal band, and split the top `signifBits` significand
bits into integer and fractional parts. -/
def ufloatParts (f : ℕ) (expBits signifBits : ℕ) : ℤ × ℕ × ℕ :=
  let u := f &&& (2 ^ 63 - 1)
  let e0 : ℤ := ((u >>> float64SignifBits : ℕ) : ℤ) -
    ((bitmask64 (float64ExpBits - 1) : ℕ) : ℤ)
  let b : ℤ := ((bitmask64 (expBits - 1) : ℕ) : ℤ)
  let e := if e0 < -b + 1 then -b + 1 else if e0 > b then b else e0
  let s := (u &&& bitmask64 float64SignifBits) >>> (float64SignifBits - signifBits)
  let n := ufloatFracBits e signifBits
  (e, s >>> n, s &&& bitmask64 n)

/-- The doubling post-pass of `genUfloatRange` (floats.go lines 192–198),
run with fuel `int(fracBits) - w`. -/
def shiftLoop (sfMin sfMax : ℕ) : ℕ → ℕ → ℕ
  | 0, sf => sf
  | fuel + 1, sf =>
    if wrap64 (sf <<< 1) < sfMin ∨ wrap64 (sf <<< 1) > sfMax ∨ wrap64 (sf <<< 1) < sf
    then sf
    else shiftLoop sfMin sfMax fuel (wrap64 (sf <<< 1))

/-- The integer-significand bounds switch of `genUfloatRange`
(floats.go lines 166–176). -/
def siBounds (pmin pmax : ℤ × ℕ × ℕ) (e : ℤ) (fracBits signifBits : ℕ) : ℕ × ℕ :=
  if pmin.1 = pmax.1 then (pmin.2.1, pmax.2.1)
  else if e = pmin.1 then (pmin.2.1, bitmask64 (signifBits - fracBits))
  else if e = pmax.1 then (0, pmax.2.1)
  else (0, bitmask64 (signifBits - fracBits))

/-- The fractional-significand bounds switch of `genUfloatRange`
(floats.go lines 178–188). -/
def sfBounds (pmin pmax : ℤ × ℕ × ℕ) (e : ℤ) (si : ℕ) (fracBits : ℕ) : ℕ × ℕ :=
  if pmin.1 = pmax.1 ∧ pmin.2.1 = pmax.2.1 then (pmin.2.2, pmax.2.2)
  else if e = pmin.1 ∧ si = pmin.2.1 then (pmin.2.2, bitmask64 fracBits)
  else if e = pmax.1 ∧ si = pmax.2.1 then (0, pmax.2.2)
  else (0, bitmask64 fracBits)

/-- The final bit-pattern assembly of `genUfloatRange`
(floats.go lines 200–203), with Go's `uint64` wrap-around made explicit. -/
def ufloatAssemble (e : ℤ) (si sf : ℕ) (fracBits signifBits : ℕ) : ℕ :=
  let eField := wrap64 (wrap64 (u64ofInt e + bitmask64 (float64ExpBits - 1))
    <<< float64SignifBits)
  let sField := wrap64 (wrap64 (wrap64 (si <<< fracBits) ||| sf)
    <<< (float64SignifBits - signifBits))
  eField ||| sField

/-- The `assert(min >= 0 && min <= max)` guard of `genUfloatRange`. -/
def ufloatAssertOk (mn mx : ℕ) : Bool := f64le f64zero mn && f64le mn mx

/-- `genUfloatRange` from floats.go.  The leading `assert(min >= 0 && min <=
max)` and the range assertions inside the primitive decoders are modelled as
`none` results. -/
def genUfloatRange (s : BitStream) (mn mx : ℕ) (expBits signifBits : ℕ) :
    Option (ℕ × BitStream) :=
  if ufloatAssertOk mn mx then
    let pmin := ufloatParts mn expBits signifBits
    let pmax := ufloatParts mx expBits signifBits
    let g1 := beginGroup s floatExpLabel false
    match genIntRange g1.2 pmin.1 pmax.1 true with
    | none => none
    | some es =>
      let e := es.1
      let s2 := endGroup es.2 g1.1 false
      let fracBits := ufloatFracBits e signifBits
      let g2 := beginGroup s2 floatSignifLabel false
      let siMM := siBounds pmin pmax e fracBits signifBits
      match genUintRange g2.2 siMM.1 siMM.2 false with
      | none => none
      | some sis =>
        let si := sis.1
        let sfMM := sfBounds pmin pmax e si fracBits
        match genUintRangeWidth sis.2 sfMM.1 sfMM.2 true with
        | none => none
        | some sfw =>
          let s3 := endGroup sfw.2.2 g2.1 false
          let sf := shiftLoop sfMM.1 sfMM.2 (fracBits - sfw.2.1) sfw.1
          some (ufloatAssemble e si sf fracBits signifBits, s3)
  else none

/-- The `posMin`/`negMin`/`pNeg` computation at the top of `genFloatRange`
(floats.go lines 207–218).  `log1p` abstracts Go's `math.Log1p`, which is
library code outside this repository. -/
def floatSignParams (log1p : ℚ → ℚ) (mn mx : ℕ) : ℕ × ℕ × ℚ :=
  if f64le f64zero mn then (mn, f64zero, 0)
  else if f64le mx f64zero then (f64zero, f64Neg mx, 1)
  else
    let pos := log1p (log1p (f64Val mx))
    let neg := log1p (log1p (f64Val (f64Neg mn)))
    (f64zero, f64zero, neg / (neg + pos))

/-- `genFloatRange` from floats.go: pick a sign with a biased coin, then draw
the magnitude from the corresponding non-negative sub-range. -/
def genFloatRange (log1p : ℚ → ℚ) (s : BitStream) (mn mx : ℕ)
    (expBits signifBits : ℕ) : Option (ℕ × BitStream) :=
  let params := floatSignParams log1p mn mx
  let c := flipBiasedCoin s params.2.2
  if c.1 then
    match genUfloatRange c.2 params.2.1 (f64Neg mn) expBits signifBits with
    | none => none
    | some us => some (f64Neg us.1, us.2)
  else
    genUfloatRange c.2 params.1 mx expBits signifBits

/-- The `floatGen` generator record from floats.go (the reflected Go type tag
is replaced by the stored bit widths). -/
structure floatGen where
  expBits : ℕ
  signifBits : ℕ
  min : ℕ
  max : ℕ
  minVal : ℕ
  maxVal : ℕ

/-- Bit pattern of `math.MaxFloat64`. -/
def maxFloat64Bits : ℕ := 2046 * 2 ^ 52 + (2 ^ 52 - 1)

/-- Bit pattern (float32) of `math.MaxFloat32`. -/
def maxFloat32Bits : ℕ := 254 * 2 ^ 23 + (2 ^ 23 - 1)

/-- `Float64sRange` from floats.go; the three `assertf` configuration checks
are modelled as `none` results. -/
def Float64sRange (mn mx : ℕ) : Option floatGen :=
  if !f64eq mn mn then none
  else if !f64eq mx mx then none
  else if !f64le mn mx then none
  else some
    { expBits := float64ExpBits, signifBits := float64SignifBits,
      min := mn, max := mx,
      minVal := f64Neg maxFloat64Bits, maxVal := maxFloat64Bits }

def f32le (a b : ℕ) : Bool :=
  !f32IsNaN a && !f32IsNaN b && decide (f32Val a ≤ f32Val b)

def f32eq (a b : ℕ) : Bool :=
  !f32IsNaN a && !f32IsNaN b && decide (f32Val a = f32Val b)

def f32Neg (u : ℕ) : ℕ := if u < 2 ^ 31 then u + 2 ^ 31 else u - 2 ^ 31

/-- `Float32sRange` from floats.go: arguments are float32 bit patterns, the
stored bounds are their exact float64 widenings. -/
def Float32sRange (mn mx : ℕ) : Option floatGen :=
  if !f32eq mn mn then none
  else if !f32eq mx mx then none
  else if !f32le mn mx then none
  else some
    { expBits := float32ExpBits, signifBits := float32SignifBits,
      min := f32ToF64 mn, max := f32ToF64 mx,
      minVal := f32ToF64 (f32Neg maxFloat32Bits), maxVal := f32ToF64 maxFloat32Bits }

/-! ### The Filter combinator

Modelled from the spec (§4.3): `Filter(g, pred)` draws from `g` repeatedly,
up to a fixed retry budget, until `pred` holds; exhausting the retries (or an
invalid inner draw) marks the whole draw invalid (`none`) instead of failing. -/

/-- A generator: decodes a value from the stream, or signals an invalid draw. -/
def Gen (α : Type) : Type := BitStream → Option (α × BitStream)

/-- Modelled from the spec: the filter retry budget ("on the order of 100"). -/
def filterRetries : ℕ := 100

def filterGo {α : Type} (g : Gen α) (pred : α → Bool) :
    ℕ → BitStream → Option (α × BitStream)
  | 0, _ => none
  | fuel + 1, s =>
    match g s with
    | none => none
    | some vs => if pred vs.1 then some vs else filterGo g pred fuel vs.2

/-- Modelled from the spec: the `Filter` generator combinator. -/
def Filter {α : Type} (g : Gen α) (pred : α → Bool) : Gen α :=
  fun s => filterGo g pred filterRetries s

/-! ### Reassembled boundary values -/

/-- The value reassembled by `genUfloatRange` from an
(exponent, integer significand, fractional significand) triple, in the same
`2 ^ (-1074)` units as `f64Val`: `(2 ^ 52 + m) * 2 ^ (e + 1022)` with `m` the
packed 52-bit mantissa.  (The `toNat` clamp is never reached: every
decomposed exponent at the widths considered satisfies `e ≥ -1022`.) -/
def partsVal (signifBits : ℕ) (p : ℤ × ℕ × ℕ) : ℤ :=
  let fb := ufloatFracBits p.1 signifBits
  (((2 ^ 52 + (p.2.1 * 2 ^ fb + p.2.2) * 2 ^ (52 - signifBits)) *
    2 ^ (p.1 + 1022).toNat : ℕ) : ℤ)

/-- Lexicographic order on decomposed triples. -/
def partsLe (p q : ℤ × ℕ × ℕ) : Prop :=
  p.1 < q.1 ∨ (p.1 = q.1 ∧ (p.2.1 < q.2.1 ∨ (p.2.1 = q.2.1 ∧ p.2.2 ≤ q.2.2)))

/-- Strict lexicographic order on decomposed triples. -/
def partsLt (p q : ℤ × ℕ × ℕ) : Prop :=
  p.1 < q.1 ∨ (p.1 = q.1 ∧ (p.2.1 < q.2.1 ∨ (p.2.1 = q.2.1 ∧ p.2.2 < q.2.2)))

instance (p q : ℤ × ℕ × ℕ) : Decidable (partsLe p q) := by
  unfold partsLe; infer_instance

instance (p q : ℤ × ℕ × ℕ) : Decidable (partsLt p q) := by
  unfold partsLt; infer_instance

/-- Significand caps satisfied by every decomposed triple: the integer part
fits in `signifBits - fracBits` bits, the fractional part in `fracBits` bits. -/
def partsCaps (signifBits : ℕ) (p : ℤ × ℕ × ℕ) : Prop :=
  p.2.1 ≤ bitmask64 (signifBits - ufloatFracBits p.1 signifBits) ∧
  p.2.2 ≤ bitmask64 (ufloatFracBits p.1 signifBits)

/-! ### Concrete sample data (used by witnesses and counterexamples) -/

/-- The all-zero tape. -/
def tape0 : ℕ → ℕ := fun _ => 0

/-- A fresh bit stream over the all-zero tape. -/
def st0 : BitStream := ⟨tape0, 0, []⟩

/-- A stand-in for `math.Log1p` in concrete runs (its value is irrelevant
to every concrete run used below). -/
def l0 : ℚ → ℚ := fun q => q

/-- Bit pattern of `1.0`. -/
def oneBits : ℕ := 1023 * 2 ^ 52

/-- Bit pattern of `-1.0`. -/
def negOneBits : ℕ := 2 ^ 63 + 1023 * 2 ^ 52

/-! ## Basic facts about the float embedding -/

lemma f64IsNaN_zero : f64IsNaN f64zero = false := by decide

lemma f64Val_zero : f64Val f64zero = 0 := by decide

lemma f64le_iff {a b : ℕ} :
    f64le a b = true ↔
      f64IsNaN a = false ∧ f64IsNaN b = false ∧ f64Val a ≤ f64Val b := by
  simp [f64le, Bool.and_eq_true, Bool.not_eq_true', and_assoc]

lemma f64eq_iff {a b : ℕ} :
    f64eq a b = true ↔
      f64IsNaN a = false ∧ f64IsNaN b = false ∧ f64Val a = f64Val b := by
  simp [f64eq, Bool.and_eq_true, Bool.not_eq_true', and_assoc]

lemma f32le_iff {a b : ℕ} :
    f32le a b = true ↔
      f32IsNaN a = false ∧ f32IsNaN b = false ∧ f32Val a ≤ f32Val b := by
  simp [f32le, Bool.and_eq_true, Bool.not_eq_true', and_assoc]

lemma f32eq_iff {a b : ℕ} :
    f32eq a b = true ↔
      f32IsNaN a = false ∧ f32IsNaN b = false ∧ f32Val a = f32Val b := by
  simp [f32eq, Bool.and_eq_true, Bool.not_eq_true', and_assoc]

lemma f64Neg_fields (u : ℕ) (h : u < 2 ^ 64) :
    f64ExpField (f64Neg u) = f64ExpField u ∧
    f64SignifField (f64Neg u) = f64SignifField u ∧
    f64SignBit (f64Neg u) = 1 - f64SignBit u := by
  unfold f64Neg f64ExpField f64SignifField f64SignBit
  split <;> omega

lemma f64IsNaN_neg (u : ℕ) (h : u < 2 ^ 64) : f64IsNaN (f64Neg u) = f64IsNaN u := by
  unfold f64IsNaN
  rw [(f64Neg_fields u h).1, (f64Neg_fields u h).2.1]

lemma f64SignBit_lt_two (u : ℕ) : f64SignBit u < 2 := by
  unfold f64SignBit; omega

lemma f64Mag_neg (u : ℕ) (h : u < 2 ^ 64) : f64Mag (f64Neg u) = f64Mag u := by
  obtain ⟨h1, h2, _⟩ := f64Neg_fields u h
  unfold f64Mag
  rw [h1, h2]

lemma f64Val_neg (u : ℕ) (h : u < 2 ^ 64) : f64Val (f64Neg u) = -f64Val u := by
  obtain ⟨_, _, h3⟩ := f64Neg_fields u h
  unfold f64Val
  rw [h3, f64Mag_neg u h]
  by_cases hb : f64SignBit u = 1
  · rw [hb]; norm_num
  · have hb0 : f64SignBit u = 0 := by
      have := f64SignBit_lt_two u; omega
    rw [hb0]; norm_num

lemma f64Neg_lt (u : ℕ) (h : u < 2 ^ 64) : f64Neg u < 2 ^ 64 := by
  unfold f64Neg; split <;> omega

/-! ## C9: sign-independence of ufloatParts -/

/-- The sign-stripping mask at the top of `ufloatParts`. -/
lemma f64Neg_mask (u : ℕ) (h : u < 2 ^ 64) :
    f64Neg u &&& (2 ^ 63 - 1) = u &&& (2 ^ 63 - 1) := by
  rw [Nat.and_pow_two_sub_one_eq_mod, Nat.and_pow_two_sub_one_eq_mod]
  unfold f64Neg
  split <;> omega

lemma ufloatParts_f64Neg (f expBits signifBits : ℕ) (h : f < 2 ^ 64) :
    ufloatParts (f64Neg f) expBits signifBits = ufloatParts f expBits signifBits := by
  unfold ufloatParts
  rw [f64Neg_mask f h]

/-- C9: `ufloatParts` is independent of the sign of its argument: negating the
float (flipping the sign bit) leaves the decomposed
(exponent, integer significand, fractional significand) triple unchanged,
because the sign bit is masked off before decomposition. -/
theorem ufloatParts_sign_independent (f expBits signifBits : ℕ) (h : f < 2 ^ 64) :
    ufloatParts (f64Neg f) expBits signifBits = ufloatParts f expBits signifBits :=
  ufloatParts_f64Neg f expBits signifBits h

theorem ufloatParts_sign_independent_witness :
    oneBits < 2 ^ 64 ∧
      ufloatParts (f64Neg oneBits) 11 52 = ufloatParts oneBits 11 52 :=
  ⟨by decide, ufloatParts_sign_independent oneBits 11 52 (by decide)⟩

/-! ## C6: the doubling post-pass -/

lemma shiftLoop_props (fuel sfMin sfMax sf : ℕ)
    (h1 : sfMin ≤ sf) (h2 : sf ≤ sfMax) :
    (sfMin ≤ shiftLoop sfMin sfMax fuel sf ∧ shiftLoop sfMin sfMax fuel sf ≤ sfMax) ∧
    (sf = 0 → shiftLoop sfMin sfMax fuel sf = sf) ∧
    (sfMin = sfMax → shiftLoop sfMin sfMax fuel sf = sf) := by
  induction fuel generalizing sf with
  | zero => exact ⟨⟨h1, h2⟩, fun _ => rfl, fun _ => rfl⟩
  | succ fuel ih =>
    unfold shiftLoop
    set sf' := wrap64 (sf <<< 1) with hsf'
    have hsf'eq : sf' = sf * 2 % 2 ^ 64 := by
      rw [hsf']; unfold wrap64; rw [Nat.shiftLeft_eq]
    split
    · exact ⟨⟨h1, h2⟩, fun _ => rfl, fun _ => rfl⟩
    · next hcond =>
      push_neg at hcond
      obtain ⟨ha, hb, hc⟩ := hcond
      refine ⟨(ih sf' ha hb).1, ?_, ?_⟩
      · intro h0
        have h0' : sf' = 0 := by omega
        rw [(ih sf' ha hb).2.1 h0', h0', h0]
      · intro hmm
        have heq : sf' = sf := by omega
        rw [(ih sf' ha hb).2.2 hmm, heq]

/-- C6: the greedy doubling loop on the fractional significand never leaves
`[sfMin, sfMax]` when started inside it; it is the identity when the start
value is `0` and when the bounds pin a single value.  (The fuel argument is
`int(fracBits) - w`, so the loop body runs at most `fracBits - w` times, and
the `sf_ < sf` test in the loop detects exactly the 64-bit wrap-around of the
doubling.) -/
theorem shiftLoop_spec (fuel sfMin sfMax sf : ℕ)
    (h1 : sfMin ≤ sf) (h2 : sf ≤ sfMax) :
    (sfMin ≤ shiftLoop sfMin sfMax fuel sf ∧ shiftLoop sfMin sfMax fuel sf ≤ sfMax) ∧
    (sf = 0 → shiftLoop sfMin sfMax fuel sf = sf) ∧
    (sfMin = sfMax → shiftLoop sfMin sfMax fuel sf = sf) :=
  shiftLoop_props fuel sfMin sfMax sf h1 h2

theorem shiftLoop_spec_witness :
    (3 ≤ 5 ∧ 5 ≤ 9) ∧
      ((3 ≤ shiftLoop 3 9 4 5 ∧ shiftLoop 3 9 4 5 ≤ 9) ∧
        ((5 : ℕ) = 0 → shiftLoop 3 9 4 5 = 5) ∧
        ((3 : ℕ) = 9 → shiftLoop 3 9 4 5 = 5)) :=
  ⟨by decide, shiftLoop_spec 4 3 9 5 (by decide) (by decide)⟩

/-! ## C8: the Filter combinator -/

lemma filterGo_sound {α : Type} (g : Gen α) (pred : α → Bool) :
    ∀ (fuel : ℕ) (s : BitStream) (v : α) (s' : BitStream),
      filterGo g pred fuel s = some (v, s') → pred v = true := by
  intro fuel
  induction fuel with
  | zero => intro s v s' h; simp [filterGo] at h
  | succ fuel ih =>
    intro s v s' h
    unfold filterGo at h
    cases hg : g s with
    | none => rw [hg] at h; simp at h
    | some vs =>
      rw [hg] at h
      dsimp only at h
      by_cases hp : pred vs.1 = true
      · rw [if_pos hp] at h
        injection h with h2
        subst h2
        simpa using hp
      · rw [if_neg hp] at h
        exact ih vs.2 v s' h

lemma filterGo_exhaust {α : Type} (g : Gen α) (pred : α → Bool)
    (hp : ∀ a, pred a = false) :
    ∀ (fuel : ℕ) (s : BitStream), filterGo g pred fuel s = none := by
  intro fuel
  induction fuel with
  | zero => intro s; rfl
  | succ fuel ih =>
    intro s
    unfold filterGo
    cases hg : g s with
    | none => rfl
    | some vs => simp [hp vs.1, ih vs.2]

/-- C8: every value produced by `Filter(g, pred)` satisfies `pred`; the
retries are bounded (by the `filterRetries` budget built into `Filter`), and
exhausting them yields an invalid draw (`none`), not a failure: in particular
a predicate that never holds always yields `none`. -/
theorem Filter_sound {α : Type} (g : Gen α) (pred : α → Bool) (s : BitStream) :
    (∀ (v : α) (s' : BitStream), Filter g pred s = some (v, s') → pred v = true) ∧
    ((∀ a, pred a = false) → Filter g pred s = none) := by
  constructor
  · intro v s' h
    exact filterGo_sound g pred filterRetries s v s' h
  · intro hp
    exact filterGo_exhaust g pred hp filterRetries s

theorem Filter_sound_witness :
    (fun n : ℕ => decide (n = 0)) 0 = true ∧
      Filter (fun s => some (s.tape s.pos, s)) (fun _ => false) st0 = none :=
  ⟨(Filter_sound (fun s => some (s.tape s.pos, s)) (fun n : ℕ => decide (n = 0)) st0).1
      0 st0 rfl,
   (Filter_sound (fun s => some (s.tape s.pos, s)) (fun _ => false) st0).2
      (fun _ => rfl)⟩

/-! ## C2: construction-time assertions of the range constructors -/

/-- C2: `Float64sRange`/`Float32sRange` succeed exactly when neither bound is
NaN and `min ≤ max`; a NaN bound or an inverted range trips a configuration
assertion at construction time (modelled as `none`), before any generator is
built. -/
theorem rangeConstructors_assert_iff (mn mx : ℕ) :
    ((Float64sRange mn mx).isSome ↔
      f64IsNaN mn = false ∧ f64IsNaN mx = false ∧ f64Val mn ≤ f64Val mx) ∧
    ((Float32sRange mn mx).isSome ↔
      f32IsNaN mn = false ∧ f32IsNaN mx = false ∧ f32Val mn ≤ f32Val mx) := by
  have e64 : (Float64sRange mn mx).isSome = (f64eq mn mn && f64eq mx mx && f64le mn mx) := by
    unfold Float64sRange
    by_cases h1 : f64eq mn mn <;> by_cases h2 : f64eq mx mx <;>
      by_cases h3 : f64le mn mx <;> simp [h1, h2, h3]
  have e32 : (Float32sRange mn mx).isSome = (f32eq mn mn && f32eq mx mx && f32le mn mx) := by
    unfold Float32sRange
    by_cases h1 : f32eq mn mn <;> by_cases h2 : f32eq mx mx <;>
      by_cases h3 : f32le mn mx <;> simp [h1, h2, h3]
  constructor
  · rw [show ((Float64sRange mn mx).isSome ↔ _) = _ from rfl, e64]
    simp only [Bool.and_eq_true, f64eq_iff, f64le_iff]
    tauto
  · rw [show ((Float32sRange mn mx).isSome ↔ _) = _ from rfl, e32]
    simp only [Bool.and_eq_true, f32eq_iff, f32le_iff]
    tauto

/-! ## C10: the genUfloatRange assertion is unreachable from genFloatRange -/

lemma f64le_false {a b : ℕ} (hn1 : f64IsNaN a = false) (hn2 : f64IsNaN b = false)
    (h : f64le a b = false) : f64Val b < f64Val a := by
  simp [f64le, hn1, hn2] at h
  exact h

/-- C10: for every non-NaN pair `min ≤ max`, each branch of `genFloatRange`
hands `genUfloatRange` a sub-range with non-negative lower bound not above the
upper bound, so the `assert(min >= 0 && min <= max)` at the top of
`genUfloatRange` can never fire: when `min ≥ 0` the coin always picks the
positive call `(min, max)`; when `max ≤ 0` it always picks the negated call
`(-max, -min)`; and in the zero-crossing case both possible calls `(0, -min)`
and `(0, max)` satisfy the assertion. -/
theorem genUfloatRange_assert_unreachable (log1p : ℚ → ℚ) (s : BitStream)
    (mn mx : ℕ) (hmn64 : mn < 2 ^ 64) (hmx64 : mx < 2 ^ 64)
    (hn1 : f64IsNaN mn = false) (hn2 : f64IsNaN mx = false)
    (hle : f64Val mn ≤ f64Val mx) :
    (f64le f64zero mn = true →
      (flipBiasedCoin s (floatSignParams log1p mn mx).2.2).1 = false ∧
      ufloatAssertOk (floatSignParams log1p mn mx).1 mx = true) ∧
    (f64le f64zero mn = false → f64le mx f64zero = true →
      (flipBiasedCoin s (floatSignParams log1p mn mx).2.2).1 = true ∧
      ufloatAssertOk (floatSignParams log1p mn mx).2.1 (f64Neg mn) = true) ∧
    (f64le f64zero mn = false → f64le mx f64zero = false →
      ufloatAssertOk (floatSignParams log1p mn mx).2.1 (f64Neg mn) = true ∧
      ufloatAssertOk (floatSignParams log1p mn mx).1 mx = true) := by
  have hNn : f64IsNaN (f64Neg mn) = false := by rw [f64IsNaN_neg mn hmn64]; exact hn1
  have hNx : f64IsNaN (f64Neg mx) = false := by rw [f64IsNaN_neg mx hmx64]; exact hn2
  refine ⟨?_, ?_, ?_⟩
  · intro h
    have hp : floatSignParams log1p mn mx = (mn, f64zero, 0) := by
      simp [floatSignParams, h]
    rw [hp]
    constructor
    · norm_num [flipBiasedCoin]
    · unfold ufloatAssertOk
      rw [h, f64le_iff.mpr ⟨hn1, hn2, hle⟩]
      rfl
  · intro h1 h2
    have hp : floatSignParams log1p mn mx = (f64zero, f64Neg mx, 1) := by
      simp [floatSignParams, h1, h2]
    rw [hp]
    have hx0 : f64Val mx ≤ 0 := by
      have := (f64le_iff.mp h2).2.2
      rwa [f64Val_zero] at this
    constructor
    · norm_num [flipBiasedCoin]
    · unfold ufloatAssertOk
      have g1 : f64le f64zero (f64Neg mx) = true := by
        refine f64le_iff.mpr ⟨f64IsNaN_zero, hNx, ?_⟩
        rw [f64Val_zero, f64Val_neg mx hmx64]
        linarith
      have g2 : f64le (f64Neg mx) (f64Neg mn) = true := by
        refine f64le_iff.mpr ⟨hNx, hNn, ?_⟩
        rw [f64Val_neg mx hmx64, f64Val_neg mn hmn64]
        linarith
      rw [g1, g2]
      rfl
  · intro h1 h2
    have hp : floatSignParams log1p mn mx =
        (f64zero, f64zero,
          log1p (log1p (f64Val (f64Neg mn))) /
            (log1p (log1p (f64Val (f64Neg mn))) + log1p (log1p (f64Val mx)))) := by
      simp [floatSignParams, h1, h2]
    rw [hp]
    have hmnneg : f64Val mn < 0 := by
      have := f64le_false f64IsNaN_zero hn1 h1
      rwa [f64Val_zero] at this
    have hmxpos : 0 < f64Val mx := by
      have := f64le_false hn2 f64IsNaN_zero h2
      rwa [f64Val_zero] at this
    have g0 : f64le f64zero f64zero = true :=
      f64le_iff.mpr ⟨f64IsNaN_zero, f64IsNaN_zero, le_refl _⟩
    constructor
    · unfold ufloatAssertOk
      have g1 : f64le f64zero (f64Neg mn) = true := by
        refine f64le_iff.mpr ⟨f64IsNaN_zero, hNn, ?_⟩
        rw [f64Val_zero, f64Val_neg mn hmn64]
        linarith
      rw [g0, g1]
      rfl
    · unfold ufloatAssertOk
      have g1 : f64le f64zero mx = true := by
        refine f64le_iff.mpr ⟨f64IsNaN_zero, hn2, ?_⟩
        rw [f64Val_zero]
        linarith
      rw [g0, g1]
      rfl

theorem genUfloatRange_assert_unreachable_witness :
    (flipBiasedCoin st0 (floatSignParams l0 oneBits oneBits).2.2).1 = false ∧
      ufloatAssertOk (floatSignParams l0 oneBits oneBits).1 oneBits = true :=
  (genUfloatRange_assert_unreachable l0 st0 oneBits oneBits (by decide) (by decide)
    (by decide) (by decide) (le_refl _)).1 (by decide)

/-! ## C4: the sign policy of genFloatRange -/

/-- C4: `genFloatRange` chooses the sign through `flipBiasedCoin` with
probability `pNeg` of taking the negative sub-range, where `pNeg = 0` when
`min ≥ 0` (the result is always drawn from the positive sub-range
`(min, max)`), `pNeg = 1` when `max ≤ 0` (the result is always the negation of
a draw from `(-max, -min)`), and in the zero-crossing case
`pNeg = log1p(log1p(-min)) / (log1p(log1p(-min)) + log1p(log1p(max)))`. -/
theorem genFloatRange_sign_policy (log1p : ℚ → ℚ) (s : BitStream)
    (mn mx expBits signifBits : ℕ) :
    (f64le f64zero mn = true →
      (floatSignParams log1p mn mx).2.2 = 0 ∧
      genFloatRange log1p s mn mx expBits signifBits =
        genUfloatRange s mn mx expBits signifBits) ∧
    (f64le f64zero mn = false → f64le mx f64zero = true →
      (floatSignParams log1p mn mx).2.2 = 1 ∧
      genFloatRange log1p s mn mx expBits signifBits =
        Option.map (fun us => (f64Neg us.1, us.2))
          (genUfloatRange s (f64Neg mx) (f64Neg mn) expBits signifBits)) ∧
    (f64le f64zero mn = false → f64le mx f64zero = false →
      (floatSignParams log1p mn mx).2.2 =
        log1p (log1p (f64Val (f64Neg mn))) /
          (log1p (log1p (f64Val (f64Neg mn))) + log1p (log1p (f64Val mx)))) := by
  refine ⟨?_, ?_, ?_⟩
  · intro h
    have hp : floatSignParams log1p mn mx = (mn, f64zero, 0) := by
      simp [floatSignParams, h]
    refine ⟨by rw [hp], ?_⟩
    unfold genFloatRange
    rw [hp]
    norm_num [flipBiasedCoin]
  · intro h1 h2
    have hp : floatSignParams log1p mn mx = (f64zero, f64Neg mx, 1) := by
      simp [floatSignParams, h1, h2]
    refine ⟨by rw [hp], ?_⟩
    unfold genFloatRange
    rw [hp]
    norm_num [flipBiasedCoin]
    rcases hG : genUfloatRange s (f64Neg mx) (f64Neg mn) expBits signifBits with _ | us
    · simp [hG]
    · simp [hG]
  · intro h1 h2
    simp [floatSignParams, h1, h2]

theorem genFloatRange_sign_policy_witness :
    (floatSignParams l0 oneBits oneBits).2.2 = 0 ∧
      genFloatRange l0 st0 oneBits oneBits 11 52 =
        genUfloatRange st0 oneBits oneBits 11 52 :=
  (genFloatRange_sign_policy l0 st0 oneBits oneBits 11 52).1 (by decide)

/-! ## The success path of genUfloatRange -/

lemma genIntRange_some {s : BitStream} {lo hi : ℤ} {bias : Bool}
    {es : ℤ × BitStream} (h : genIntRange s lo hi bias = some es) :
    lo ≤ es.1 ∧ es.1 ≤ hi ∧ es.2 = (drawWord s).2 := by
  unfold genIntRange at h
  split at h
  · next hlohi =>
    injection h with h2
    subst h2
    have hm1 : 0 ≤ ((drawWord s).1 : ℤ) % (hi - lo + 1) :=
      Int.emod_nonneg _ (by omega)
    have hm2 : ((drawWord s).1 : ℤ) % (hi - lo + 1) < hi - lo + 1 :=
      Int.emod_lt_of_pos _ (by omega)
    refine ⟨?_, ?_, rfl⟩ <;> dsimp only <;> omega
  · exact Option.noConfusion h

lemma genUintRange_some {s : BitStream} {lo hi : ℕ} {bias : Bool}
    {es : ℕ × BitStream} (h : genUintRange s lo hi bias = some es) :
    lo ≤ es.1 ∧ es.1 ≤ hi ∧ es.2 = (drawWord s).2 := by
  unfold genUintRange at h
  split at h
  · next hlohi =>
    injection h with h2
    subst h2
    have hm2 : (drawWord s).1 % (hi - lo + 1) < hi - lo + 1 :=
      Nat.mod_lt _ (by omega)
    refine ⟨?_, ?_, rfl⟩ <;> dsimp only <;> omega
  · exact Option.noConfusion h

lemma genUintRangeWidth_some {s : BitStream} {lo hi : ℕ} {bias : Bool}
    {es : ℕ × ℕ × BitStream} (h : genUintRangeWidth s lo hi bias = some es) :
    lo ≤ es.1 ∧ es.1 ≤ hi ∧ es.2.2 = (drawWord (drawWord s).2).2 := by
  unfold genUintRangeWidth at h
  split at h
  · next hlohi =>
    injection h with h2
    subst h2
    have hm2 : (drawWord s).1 % (hi - lo + 1) < hi - lo + 1 :=
      Nat.mod_lt _ (by omega)
    refine ⟨?_, ?_, rfl⟩ <;> dsimp only <;> omega
  · exact Option.noConfusion h

/-- Characterization of every successful run of `genUfloatRange`: the drawn
exponent lies between the decomposed exponents of the bounds, the drawn
significand parts lie between the bounds selected by the two switches, the
result is the assembly of the drawn triple (after the doubling post-pass),
and the stream trace records exactly one well-nested "floatexp" group
followed by one well-nested "floatsignif" group. -/
lemma genUfloatRange_run {s : BitStream} {mn mx expBits signifBits u : ℕ}
    {s' : BitStream}
    (h : genUfloatRange s mn mx expBits signifBits = some (u, s')) :
    ∃ (e : ℤ) (si sf0 w : ℕ),
      ufloatAssertOk mn mx = true ∧
      (ufloatParts mn expBits signifBits).1 ≤ e ∧
      e ≤ (ufloatParts mx expBits signifBits).1 ∧
      (siBounds (ufloatParts mn expBits signifBits) (ufloatParts mx expBits signifBits)
          e (ufloatFracBits e signifBits) signifBits).1 ≤ si ∧
      si ≤ (siBounds (ufloatParts mn expBits signifBits) (ufloatParts mx expBits signifBits)
          e (ufloatFracBits e signifBits) signifBits).2 ∧
      (sfBounds (ufloatParts mn expBits signifBits) (ufloatParts mx expBits signifBits)
          e si (ufloatFracBits e signifBits)).1 ≤ sf0 ∧
      sf0 ≤ (sfBounds (ufloatParts mn expBits signifBits) (ufloatParts mx expBits signifBits)
          e si (ufloatFracBits e signifBits)).2 ∧
      u = ufloatAssemble e si
            (shiftLoop
              (sfBounds (ufloatParts mn expBits signifBits)
                (ufloatParts mx expBits signifBits) e si (ufloatFracBits e signifBits)).1
              (sfBounds (ufloatParts mn expBits signifBits)
                (ufloatParts mx expBits signifBits) e si (ufloatFracBits e signifBits)).2
              (ufloatFracBits e signifBits - w) sf0)
            (ufloatFracBits e signifBits) signifBits ∧
      s'.trace = s.trace ++
        [BSEvent.begin floatExpLabel s.trace.length false,
         BSEvent.draw (s.tape s.pos),
         BSEvent.close s.trace.length false,
         BSEvent.begin floatSignifLabel (s.trace.length + 3) false,
         BSEvent.draw (s.tape (s.pos + 1)),
         BSEvent.draw (s.tape (s.pos + 2)),
         BSEvent.draw (s.tape (s.pos + 3)),
         BSEvent.close (s.trace.length + 3) false] := by
  unfold genUfloatRange at h
  by_cases hA : ufloatAssertOk mn mx = true
  · rw [if_pos hA] at h
    dsimp only at h
    split at h
    · exact Option.noConfusion h
    · rename_i es hE
      obtain ⟨hE1, hE2, hEs⟩ := genIntRange_some hE
      split at h
      · exact Option.noConfusion h
      · rename_i sis hSI
        obtain ⟨hSI1, hSI2, hSIs⟩ := genUintRange_some hSI
        split at h
        · exact Option.noConfusion h
        · rename_i sfw hSF
          obtain ⟨hSF1, hSF2, hSFs⟩ := genUintRangeWidth_some hSF
          injection h with h2
          rw [Prod.mk.injEq] at h2
          obtain ⟨hu, hs'⟩ := h2
          refine ⟨es.1, sis.1, sfw.1, sfw.2.1, hA, hE1, hE2, hSI1, hSI2,
            hSF1, hSF2, hu.symm, ?_⟩
          rw [← hs', hSFs, hSIs, hEs]
          simp [endGroup, beginGroup, drawWord, List.append_assoc]
  · rw [if_neg hA] at h
    exact Option.noConfusion h

/-! ## C7: group well-nesting in genUfloatRange -/

/-- C7: in every completed execution of `genUfloatRange` the stream trace
grows by exactly one "floatexp" group — opened by `beginGroup` and closed by
`endGroup` with the token `beginGroup` returned — followed by one
"floatsignif" group, likewise closed with its own token; the appended trace
is well nested (every `beginGroup` has its matching `endGroup`). -/
theorem genUfloatRange_groups_wellNested (s : BitStream)
    (mn mx expBits signifBits u : ℕ) (s' : BitStream)
    (h : genUfloatRange s mn mx expBits signifBits = some (u, s')) :
    s'.trace = s.trace ++
      [BSEvent.begin floatExpLabel s.trace.length false,
       BSEvent.draw (s.tape s.pos),
       BSEvent.close s.trace.length false,
       BSEvent.begin floatSignifLabel (s.trace.length + 3) false,
       BSEvent.draw (s.tape (s.pos + 1)),
       BSEvent.draw (s.tape (s.pos + 2)),
       BSEvent.draw (s.tape (s.pos + 3)),
       BSEvent.close (s.trace.length + 3) false] ∧
    wellNested
      [BSEvent.begin floatExpLabel s.trace.length false,
       BSEvent.draw (s.tape s.pos),
       BSEvent.close s.trace.length false,
       BSEvent.begin floatSignifLabel (s.trace.length + 3) false,
       BSEvent.draw (s.tape (s.pos + 1)),
       BSEvent.draw (s.tape (s.pos + 2)),
       BSEvent.draw (s.tape (s.pos + 3)),
       BSEvent.close (s.trace.length + 3) false] = true := by
  obtain ⟨e, si, sf0, w, -, -, -, -, -, -, -, -, htr⟩ := genUfloatRange_run h
  refine ⟨htr, ?_⟩
  simp [wellNested, wellNestedFrom]

theorem genUfloatRange_groups_wellNested_witness :
    (⟨tape0, 4,
      [BSEvent.begin floatExpLabel 0 false, BSEvent.draw 0, BSEvent.close 0 false,
       BSEvent.begin floatSignifLabel 3 false, BSEvent.draw 0, BSEvent.draw 0,
       BSEvent.draw 0, BSEvent.close 3 false]⟩ : BitStream).trace =
      st0.trace ++
        [BSEvent.begin floatExpLabel st0.trace.length false,
         BSEvent.draw (st0.tape st0.pos),
         BSEvent.close st0.trace.length false,
         BSEvent.begin floatSignifLabel (st0.trace.length + 3) false,
         BSEvent.draw (st0.tape (st0.pos + 1)),
         BSEvent.draw (st0.tape (st0.pos + 2)),
         BSEvent.draw (st0.tape (st0.pos + 3)),
         BSEvent.close (st0.trace.length + 3) false] ∧
      wellNested
        [BSEvent.begin floatExpLabel st0.trace.length false,
         BSEvent.draw (st0.tape st0.pos),
         BSEvent.close st0.trace.length false,
         BSEvent.begin floatSignifLabel (st0.trace.length + 3) false,
         BSEvent.draw (st0.tape (st0.pos + 1)),
         BSEvent.draw (st0.tape (st0.pos + 2)),
         BSEvent.draw (st0.tape (st0.pos + 3)),
         BSEvent.close (st0.trace.length + 3) false] = true :=
  genUfloatRange_groups_wellNested st0 f64zero oneBits 11 52 (2 ^ 52)
    ⟨tape0, 4,
      [BSEvent.begin floatExpLabel 0 false, BSEvent.draw 0, BSEvent.close 0 false,
       BSEvent.begin floatSignifLabel 3 false, BSEvent.draw 0, BSEvent.draw 0,
       BSEvent.draw 0, BSEvent.close 3 false]⟩ (by with_unfolding_all rfl)

/-! ## Arithmetic characterization of ufloatParts -/

/-- The clamped exponent computed by `ufloatParts`, in plain arithmetic. -/
def ufpExp (f : ℕ) (expBits : ℕ) : ℤ :=
  if ((f % 2 ^ 63 / 2 ^ 52 : ℕ) : ℤ) - 1023 < -((bitmask64 (expBits - 1) : ℕ) : ℤ) + 1
  then -((bitmask64 (expBits - 1) : ℕ) : ℤ) + 1
  else if ((f % 2 ^ 63 / 2 ^ 52 : ℕ) : ℤ) - 1023 > ((bitmask64 (expBits - 1) : ℕ) : ℤ)
  then ((bitmask64 (expBits - 1) : ℕ) : ℤ)
  else ((f % 2 ^ 63 / 2 ^ 52 : ℕ) : ℤ) - 1023

/-- The truncated significand computed by `ufloatParts`, in plain arithmetic. -/
def ufpSig (f : ℕ) (signifBits : ℕ) : ℕ := f % 2 ^ 63 % 2 ^ 52 / 2 ^ (52 - signifBits)

lemma ufloatParts_def (f expBits signifBits : ℕ) :
    ufloatParts f expBits signifBits =
      (ufpExp f expBits,
       ufpSig f signifBits / 2 ^ ufloatFracBits (ufpExp f expBits) signifBits,
       ufpSig f signifBits % 2 ^ ufloatFracBits (ufpExp f expBits) signifBits) := by
  unfold ufloatParts ufpExp ufpSig bitmask64 float64SignifBits float64ExpBits
  simp only [Nat.and_pow_two_sub_one_eq_mod, Nat.shiftRight_eq_div_pow]
  norm_num

lemma ufloatFracBits_le (e : ℤ) (signifBits : ℕ) :
    ufloatFracBits e signifBits ≤ signifBits := by
  unfold ufloatFracBits
  split_ifs <;> omega

lemma bitmask64_le_1023 {expBits : ℕ} (h : expBits ≤ 11) :
    (bitmask64 (expBits - 1) : ℕ) ≤ 1023 := by
  unfold bitmask64
  have : 2 ^ (expBits - 1) ≤ 2 ^ 10 := Nat.pow_le_pow_right (by norm_num) (by omega)
  omega

lemma one_le_bitmask64 {expBits : ℕ} (h : 2 ≤ expBits) :
    1 ≤ (bitmask64 (expBits - 1) : ℕ) := by
  unfold bitmask64
  have : 2 ^ 1 ≤ 2 ^ (expBits - 1) := Nat.pow_le_pow_right (by norm_num) (by omega)
  omega

/-- C5's first half, as a reusable lemma: the clamped exponent of every
decomposition lies in the normal band `[-b + 1, b]`, `b = 2 ^ (expBits-1) - 1`. -/
lemma ufpExp_bounds (f : ℕ) {expBits : ℕ} (h2 : 2 ≤ expBits) :
    -((bitmask64 (expBits - 1) : ℕ) : ℤ) + 1 ≤ ufpExp f expBits ∧
    ufpExp f expBits ≤ ((bitmask64 (expBits - 1) : ℕ) : ℤ) := by
  have hb := one_le_bitmask64 h2
  unfold ufpExp
  split_ifs <;> omega

lemma ufpExp_range (f : ℕ) {expBits : ℕ} (h2 : 2 ≤ expBits) (h11 : expBits ≤ 11) :
    -1022 ≤ ufpExp f expBits ∧ ufpExp f expBits ≤ 1023 := by
  have hb1 := one_le_bitmask64 h2
  have hb2 := bitmask64_le_1023 h11
  unfold ufpExp
  split_ifs <;> omega

lemma ufpSig_lt (f : ℕ) {signifBits : ℕ} (h : signifBits ≤ 52) :
    ufpSig f signifBits < 2 ^ signifBits := by
  unfold ufpSig
  rw [Nat.div_lt_iff_lt_mul (Nat.pos_pow_of_pos _ (by norm_num))]
  calc f % 2 ^ 63 % 2 ^ 52 < 2 ^ 52 := Nat.mod_lt _ (by norm_num)
    _ = 2 ^ signifBits * 2 ^ (52 - signifBits) := by
        rw [← pow_add]
        congr 1
        omega

lemma ufloatParts_caps (f expBits signifBits : ℕ) (h : signifBits ≤ 52) :
    partsCaps signifBits (ufloatParts f expBits signifBits) := by
  rw [ufloatParts_def]
  unfold partsCaps bitmask64
  dsimp only
  set fb := ufloatFracBits (ufpExp f expBits) signifBits with hfb
  have hfble : fb ≤ signifBits := ufloatFracBits_le _ _
  constructor
  · have hlt : ufpSig f signifBits / 2 ^ fb < 2 ^ (signifBits - fb) := by
      rw [Nat.div_lt_iff_lt_mul (Nat.pos_pow_of_pos _ (by norm_num))]
      calc ufpSig f signifBits < 2 ^ signifBits := ufpSig_lt f h
        _ = 2 ^ (signifBits - fb) * 2 ^ fb := by
            rw [← pow_add]
            congr 1
            omega
    omega
  · have hlt : ufpSig f signifBits % 2 ^ fb < 2 ^ fb :=
      Nat.mod_lt _ (Nat.pos_pow_of_pos _ (by norm_num))
    omega

lemma ufloatParts_zero {expBits : ℕ} (signifBits : ℕ)
    (h2 : 2 ≤ expBits) (h11 : expBits ≤ 11) :
    ufloatParts f64zero expBits signifBits =
      (-((bitmask64 (expBits - 1) : ℕ) : ℤ) + 1, 0, 0) := by
  have hb2 := bitmask64_le_1023 h11
  rw [ufloatParts_def]
  have he : ufpExp f64zero expBits = -((bitmask64 (expBits - 1) : ℕ) : ℤ) + 1 := by
    unfold ufpExp f64zero
    norm_num
    omega
  have hs : ufpSig f64zero signifBits = 0 := by
    unfold ufpSig f64zero
    simp
  rw [he, hs]
  simp

/-! ## Valuation of the assembled bit pattern -/

/-- The packed 52-bit mantissa is below `2 ^ 52` whenever the parts respect
their caps. -/
lemma packed_mantissa_lt {si sf fb signifBits : ℕ} (hfb : fb ≤ signifBits)
    (hsb : signifBits ≤ 52) (hsi : si ≤ bitmask64 (signifBits - fb))
    (hsf : sf ≤ bitmask64 fb) :
    (si * 2 ^ fb + sf) * 2 ^ (52 - signifBits) ≤ 2 ^ 52 - 2 ^ (52 - signifBits) := by
  unfold bitmask64 at hsi hsf
  have hA : 1 ≤ 2 ^ (signifBits - fb) := Nat.one_le_two_pow
  have hB : 1 ≤ 2 ^ fb := Nat.one_le_two_pow
  have hC : 1 ≤ 2 ^ (52 - signifBits) := Nat.one_le_two_pow
  have hAB : 2 ^ (signifBits - fb) * 2 ^ fb = 2 ^ signifBits := by
    rw [← pow_add]; congr 1; omega
  have hSC : 2 ^ signifBits * 2 ^ (52 - signifBits) = 2 ^ 52 := by
    rw [← pow_add]; congr 1; omega
  have k1 : si * 2 ^ fb ≤ (2 ^ (signifBits - fb) - 1) * 2 ^ fb :=
    Nat.mul_le_mul_right _ hsi
  have k2 : (2 ^ (signifBits - fb) - 1) * 2 ^ fb = 2 ^ signifBits - 2 ^ fb := by
    rw [Nat.sub_one_mul, hAB]
  have hBle : 2 ^ fb ≤ 2 ^ signifBits := Nat.pow_le_pow_right (by norm_num) hfb
  have k3 : si * 2 ^ fb + sf ≤ 2 ^ signifBits - 1 := by omega
  have k4 : (si * 2 ^ fb + sf) * 2 ^ (52 - signifBits) ≤
      (2 ^ signifBits - 1) * 2 ^ (52 - signifBits) := Nat.mul_le_mul_right _ k3
  have k5 : (2 ^ signifBits - 1) * 2 ^ (52 - signifBits) =
      2 ^ 52 - 2 ^ (52 - signifBits) := by
    rw [Nat.sub_one_mul, hSC]
  omega

/-- The assembled bit pattern in plain arithmetic: biased exponent field in
the high bits, packed mantissa in the low 52. -/
lemma ufloatAssemble_eq {e : ℤ} {si sf fb signifBits : ℕ}
    (he1 : -1022 ≤ e) (he2 : e ≤ 1023) (hfb : fb ≤ signifBits)
    (hsb : signifBits ≤ 52) (hsi : si ≤ bitmask64 (signifBits - fb))
    (hsf : sf ≤ bitmask64 fb) :
    ufloatAssemble e si sf fb signifBits =
      (e + 1023).toNat * 2 ^ 52 + (si * 2 ^ fb + sf) * 2 ^ (52 - signifBits) := by
  have hm := packed_mantissa_lt hfb hsb hsi hsf
  have hsffb : sf < 2 ^ fb := by
    unfold bitmask64 at hsf
    have : 1 ≤ 2 ^ fb := Nat.one_le_two_pow
    omega
  unfold ufloatAssemble u64ofInt wrap64 float64ExpBits float64SignifBits bitmask64
  simp only [Nat.shiftLeft_eq]
  have hE : ((e % 2 ^ 64).toNat + (2 ^ (11 - 1) - 1)) % 2 ^ 64 = (e + 1023).toNat := by
    norm_num
    omega
  rw [hE]
  have hEbound : (e + 1023).toNat ≤ 2046 := by omega
  have hE52 : (e + 1023).toNat * 2 ^ 52 % 2 ^ 64 = (e + 1023).toNat * 2 ^ 52 := by
    apply Nat.mod_eq_of_lt
    calc (e + 1023).toNat * 2 ^ 52 ≤ 2046 * 2 ^ 52 := Nat.mul_le_mul_right _ hEbound
      _ < 2 ^ 64 := by norm_num
  rw [hE52]
  have hself : si * 2 ^ fb + sf ≤ (si * 2 ^ fb + sf) * 2 ^ (52 - signifBits) :=
    Nat.le_mul_of_pos_right _ (Nat.pos_pow_of_pos _ (by norm_num))
  have hchain : si * 2 ^ fb + sf ≤ 2 ^ 52 :=
    le_trans (le_trans hself hm) (Nat.sub_le _ _)
  have hmle : (si * 2 ^ fb + sf) * 2 ^ (52 - signifBits) ≤ 2 ^ 52 :=
    le_trans hm (Nat.sub_le _ _)
  have hmlt : (si * 2 ^ fb + sf) * 2 ^ (52 - signifBits) < 2 ^ 52 := by
    have h1 : 0 < 2 ^ (52 - signifBits) := Nat.pos_pow_of_pos _ (by norm_num)
    have hk52 : 2 ^ (52 - signifBits) ≤ 2 ^ 52 :=
      Nat.pow_le_pow_right (by norm_num) (by omega)
    have h3 := Nat.add_le_add_right hm (2 ^ (52 - signifBits))
    rw [Nat.sub_add_cancel hk52] at h3
    exact lt_of_lt_of_le (Nat.lt_add_of_pos_right h1) h3
  have hsi2 : si * 2 ^ fb % 2 ^ 64 = si * 2 ^ fb := by
    apply Nat.mod_eq_of_lt
    calc si * 2 ^ fb ≤ si * 2 ^ fb + sf := Nat.le_add_right _ _
      _ ≤ 2 ^ 52 := hchain
      _ < 2 ^ 64 := by norm_num
  rw [hsi2]
  have hor1 : si * 2 ^ fb ||| sf = si * 2 ^ fb + sf := by
    rw [mul_comm si (2 ^ fb)]
    exact (Nat.mul_add_lt_is_or hsffb si).symm
  rw [hor1]
  have hps : (si * 2 ^ fb + sf) % 2 ^ 64 = si * 2 ^ fb + sf := by
    apply Nat.mod_eq_of_lt
    exact lt_of_le_of_lt hchain (by norm_num)
  rw [hps]
  have hm2 : (si * 2 ^ fb + sf) * 2 ^ (52 - signifBits) % 2 ^ 64 =
      (si * 2 ^ fb + sf) * 2 ^ (52 - signifBits) := by
    apply Nat.mod_eq_of_lt
    exact lt_of_le_of_lt hmle (by norm_num)
  rw [hm2]
  have hor2 : (e + 1023).toNat * 2 ^ 52 ||| (si * 2 ^ fb + sf) * 2 ^ (52 - signifBits) =
      (e + 1023).toNat * 2 ^ 52 + (si * 2 ^ fb + sf) * 2 ^ (52 - signifBits) := by
    rw [mul_comm ((e + 1023).toNat) (2 ^ 52)]
    exact (Nat.mul_add_lt_is_or hmlt ((e + 1023).toNat)).symm
  rw [hor2]

/-- Valuation of the assembled bit pattern: it is a positive normal float64
worth `(2 ^ 52 + m) * 2 ^ (e + 1022)` in scaled units — exactly
`partsVal signifBits (e, si, sf)` when `fb` is the fractional width of `e`. -/
lemma f64Val_ufloatAssemble {e : ℤ} {si sf fb signifBits : ℕ}
    (he1 : -1022 ≤ e) (he2 : e ≤ 1023) (hfb : fb ≤ signifBits)
    (hsb : signifBits ≤ 52) (hsi : si ≤ bitmask64 (signifBits - fb))
    (hsf : sf ≤ bitmask64 fb) :
    f64Val (ufloatAssemble e si sf fb signifBits) =
      (((2 ^ 52 + (si * 2 ^ fb + sf) * 2 ^ (52 - signifBits)) *
        2 ^ (e + 1022).toNat : ℕ) : ℤ) ∧
    ufloatAssemble e si sf fb signifBits < 2 ^ 63 := by
  have hm := packed_mantissa_lt hfb hsb hsi hsf
  have h1 : 1 ≤ 2 ^ (52 - signifBits) := Nat.one_le_two_pow
  rw [ufloatAssemble_eq he1 he2 hfb hsb hsi hsf]
  set E := (e + 1023).toNat with hE
  set m := (si * 2 ^ fb + sf) * 2 ^ (52 - signifBits) with hmdef
  have hE1 : 1 ≤ E := by omega
  have hE2 : E ≤ 2046 := by omega
  have hmlt : m < 2 ^ 52 := by omega
  have hult : E * 2 ^ 52 + m < 2 ^ 63 := by
    have : E * 2 ^ 52 ≤ 2046 * 2 ^ 52 := Nat.mul_le_mul_right _ hE2
    omega
  refine ⟨?_, hult⟩
  have hexp : f64ExpField (E * 2 ^ 52 + m) = E := by
    unfold f64ExpField
    omega
  have hsig : f64SignifField (E * 2 ^ 52 + m) = m := by
    unfold f64SignifField
    omega
  have hbit : f64SignBit (E * 2 ^ 52 + m) = 0 := by
    unfold f64SignBit
    omega
  unfold f64Val f64Mag
  rw [hexp, hsig, hbit]
  have hne0 : E ≠ 0 := by omega
  have hne2047 : E ≠ 2047 := by omega
  simp only [if_neg hne0, if_neg hne2047]
  norm_num
  congr 2
  omega

/-! ## Monotonicity of partsVal in the lexicographic order -/

lemma partsVal_eq (signifBits : ℕ) (p : ℤ × ℕ × ℕ) :
    partsVal signifBits p =
      (((2 ^ 52 + (p.2.1 * 2 ^ ufloatFracBits p.1 signifBits + p.2.2) *
        2 ^ (52 - signifBits)) * 2 ^ (p.1 + 1022).toNat : ℕ) : ℤ) := rfl

lemma partsVal_lt_of_partsLt {signifBits : ℕ} (hsb : signifBits ≤ 52)
    {p q : ℤ × ℕ × ℕ} (hp : partsCaps signifBits p) (hq : partsCaps signifBits q)
    (hpe : -1022 ≤ p.1) (hqe : -1022 ≤ q.1)
    (h : partsLt p q) : partsVal signifBits p < partsVal signifBits q := by
  obtain ⟨hp1, hp2⟩ := hp
  obtain ⟨hq1, hq2⟩ := hq
  have hmp := packed_mantissa_lt (ufloatFracBits_le p.1 signifBits) hsb hp1 hp2
  have hmq := packed_mantissa_lt (ufloatFracBits_le q.1 signifBits) hsb hq1 hq2
  have hC : 1 ≤ 2 ^ (52 - signifBits) := Nat.one_le_two_pow
  rw [partsVal_eq, partsVal_eq]
  rw [Int.ofNat_lt]
  rcases h with hlt | ⟨heq, hrest⟩
  · -- strictly smaller exponent: the whole binade is below
    have hE : (p.1 + 1022).toNat + 1 ≤ (q.1 + 1022).toNat := by omega
    calc (2 ^ 52 + (p.2.1 * 2 ^ ufloatFracBits p.1 signifBits + p.2.2) *
          2 ^ (52 - signifBits)) * 2 ^ (p.1 + 1022).toNat
        < 2 ^ 53 * 2 ^ (p.1 + 1022).toNat :=
          mul_lt_mul_of_pos_right (by omega) (Nat.pos_pow_of_pos _ (by norm_num))
      _ = 2 ^ (53 + (p.1 + 1022).toNat) := by rw [← pow_add]
      _ ≤ 2 ^ (52 + (q.1 + 1022).toNat) := Nat.pow_le_pow_right (by norm_num) (by omega)
      _ = 2 ^ 52 * 2 ^ (q.1 + 1022).toNat := by rw [← pow_add]
      _ ≤ (2 ^ 52 + (q.2.1 * 2 ^ ufloatFracBits q.1 signifBits + q.2.2) *
            2 ^ (52 - signifBits)) * 2 ^ (q.1 + 1022).toNat :=
          Nat.mul_le_mul_right _ (Nat.le_add_right _ _)
  · -- equal exponent: compare packed mantissas
    have hfb : ufloatFracBits p.1 signifBits = ufloatFracBits q.1 signifBits := by
      rw [heq]
    have hm' : p.2.1 * 2 ^ ufloatFracBits p.1 signifBits + p.2.2 <
        q.2.1 * 2 ^ ufloatFracBits q.1 signifBits + q.2.2 := by
      rw [hfb]
      set fb := ufloatFracBits q.1 signifBits with hfbdef
      rcases hrest with hsilt | ⟨hsieq, hsflt⟩
      · have hsfp : p.2.2 < 2 ^ fb := by
          unfold bitmask64 at hp2
          have h1 : 1 ≤ 2 ^ fb := Nat.one_le_two_pow
          rw [hfb] at hp2
          omega
        calc p.2.1 * 2 ^ fb + p.2.2 < p.2.1 * 2 ^ fb + 2 ^ fb := by omega
          _ = (p.2.1 + 1) * 2 ^ fb := by ring
          _ ≤ q.2.1 * 2 ^ fb := Nat.mul_le_mul_right _ (by omega)
          _ ≤ q.2.1 * 2 ^ fb + q.2.2 := Nat.le_add_right _ _
      · rw [hsieq]
        omega
    have hm : (p.2.1 * 2 ^ ufloatFracBits p.1 signifBits + p.2.2) *
        2 ^ (52 - signifBits) <
        (q.2.1 * 2 ^ ufloatFracBits q.1 signifBits + q.2.2) * 2 ^ (52 - signifBits) :=
      mul_lt_mul_of_pos_right hm' (Nat.pos_pow_of_pos _ (by norm_num))
    rw [hfb] at hm
    rw [heq]
    exact mul_lt_mul_of_pos_right (Nat.add_lt_add_left hm _)
      (Nat.pos_pow_of_pos _ (by norm_num))

lemma partsVal_le_of_partsLe {signifBits : ℕ} (hsb : signifBits ≤ 52)
    {p q : ℤ × ℕ × ℕ} (hp : partsCaps signifBits p) (hq : partsCaps signifBits q)
    (hpe : -1022 ≤ p.1) (hqe : -1022 ≤ q.1)
    (h : partsLe p q) : partsVal signifBits p ≤ partsVal signifBits q := by
  by_cases hstrict : partsLt p q
  · exact le_of_lt (partsVal_lt_of_partsLt hsb hp hq hpe hqe hstrict)
  · have heq : p = q := by
      obtain ⟨pa, pb, pc⟩ := p
      obtain ⟨qa, qb, qc⟩ := q
      unfold partsLe at h
      unfold partsLt at hstrict
      simp only [Prod.mk.injEq]
      dsimp only at h hstrict
      omega
    rw [heq]

lemma partsLt_of_not_partsLe {p q : ℤ × ℕ × ℕ} (h : ¬ partsLe p q) : partsLt q p := by
  obtain ⟨pa, pb, pc⟩ := p
  obtain ⟨qa, qb, qc⟩ := q
  unfold partsLe at h
  unfold partsLt
  dsimp only at h ⊢
  omega

/-- Derive the lexicographic order of two decompositions from the order of
their reassembled values. -/
lemma partsLe_of_partsVal_le {signifBits : ℕ} (hsb : signifBits ≤ 52)
    {p q : ℤ × ℕ × ℕ} (hp : partsCaps signifBits p) (hq : partsCaps signifBits q)
    (hpe : -1022 ≤ p.1) (hqe : -1022 ≤ q.1)
    (h : partsVal signifBits p ≤ partsVal signifBits q) : partsLe p q := by
  by_contra hcon
  have := partsVal_lt_of_partsLt hsb hq hp hqe hpe (partsLt_of_not_partsLe hcon)
  omega

/-! ## Analysis of the two bounds switches -/

lemma siBounds_spec {pmin pmax : ℤ × ℕ × ℕ} {e : ℤ} {signifBits : ℕ}
    (hcapmin : partsCaps signifBits pmin) (hcapmax : partsCaps signifBits pmax)
    (hemin : pmin.1 ≤ e) (hemax : e ≤ pmax.1) {si : ℕ}
    (h1 : (siBounds pmin pmax e (ufloatFracBits e signifBits) signifBits).1 ≤ si)
    (h2 : si ≤ (siBounds pmin pmax e (ufloatFracBits e signifBits) signifBits).2) :
    si ≤ bitmask64 (signifBits - ufloatFracBits e signifBits) ∧
    (e = pmin.1 → pmin.2.1 ≤ si) ∧
    (e = pmax.1 → si ≤ pmax.2.1) := by
  unfold siBounds at h1 h2
  split_ifs at h1 h2 with hc1 hc2 hc3
  · -- equal boundary exponents: e coincides with both
    have he : e = pmax.1 := by omega
    refine ⟨?_, fun _ => h1, fun _ => h2⟩
    have := hcapmax.1
    rw [← he] at this
    omega
  · -- e at the lower boundary exponent
    refine ⟨h2, fun _ => h1, fun hmax => absurd (hc2.symm.trans hmax) hc1⟩
  · -- e at the upper boundary exponent
    refine ⟨?_, fun hmin => absurd (hmin.symm.trans hc3) hc1, fun _ => h2⟩
    have := hcapmax.1
    rw [← hc3] at this
    omega
  · -- e strictly between the boundary exponents
    exact ⟨h2, fun hmin => absurd hmin hc2, fun hmax => absurd hmax hc3⟩

lemma sfBounds_spec {pmin pmax : ℤ × ℕ × ℕ} {e : ℤ} {si signifBits : ℕ}
    (hcapmin : partsCaps signifBits pmin) (hcapmax : partsCaps signifBits pmax)
    (hemin : pmin.1 ≤ e) (hemax : e ≤ pmax.1) {sf : ℕ}
    (h1 : (sfBounds pmin pmax e si (ufloatFracBits e signifBits)).1 ≤ sf)
    (h2 : sf ≤ (sfBounds pmin pmax e si (ufloatFracBits e signifBits)).2) :
    sf ≤ bitmask64 (ufloatFracBits e signifBits) ∧
    (e = pmin.1 → si = pmin.2.1 → pmin.2.2 ≤ sf) ∧
    (e = pmax.1 → si = pmax.2.1 → sf ≤ pmax.2.2) := by
  unfold sfBounds at h1 h2
  split_ifs at h1 h2 with hc1 hc2 hc3
  · -- both boundary decompositions agree on exponent and integer part
    have he : e = pmax.1 := by omega
    refine ⟨?_, fun _ _ => h1, fun _ _ => h2⟩
    have := hcapmax.2
    rw [← he] at this
    omega
  · -- the draw sits at the lower boundary
    refine ⟨h2, fun _ _ => h1, fun hmax hsimax => ?_⟩
    exact absurd ⟨(hc2.1.symm.trans hmax), (hc2.2.symm.trans hsimax)⟩ hc1
  · -- the draw sits at the upper boundary
    refine ⟨?_, fun hmin hsimin => absurd ⟨hmin.symm.trans hc3.1, hsimin.symm.trans hc3.2⟩ hc1,
      fun _ _ => h2⟩
    have := hcapmax.2
    rw [← hc3.1] at this
    omega
  · -- unconstrained
    exact ⟨h2, fun hmin hsimin => absurd ⟨hmin, hsimin⟩ hc2,
      fun hmax hsimax => absurd ⟨hmax, hsimax⟩ hc3⟩

/-! ## Value bounds for genUfloatRange -/

lemma ufloatParts_fst (f expBits signifBits : ℕ) :
    (ufloatParts f expBits signifBits).1 = ufpExp f expBits := by
  rw [ufloatParts_def]

/-- Every successful draw of `genUfloatRange` is a positive normal float64
whose value lies between the reassembled boundary decompositions, and whose
magnitude is bounded by the largest value expressible at the given widths. -/
lemma genUfloatRange_bounds {s : BitStream} {mn mx expBits signifBits u : ℕ}
    {s' : BitStream} (h2eb : 2 ≤ expBits) (h11 : expBits ≤ 11)
    (hsb : signifBits ≤ 52)
    (h : genUfloatRange s mn mx expBits signifBits = some (u, s')) :
    partsVal signifBits (ufloatParts mn expBits signifBits) ≤ f64Val u ∧
    f64Val u ≤ partsVal signifBits (ufloatParts mx expBits signifBits) ∧
    0 < f64Val u ∧ u < 2 ^ 63 ∧
    f64Val u ≤ (((2 ^ 53 - 2 ^ (52 - signifBits)) *
      2 ^ ((bitmask64 (expBits - 1) : ℕ) + 1022) : ℕ) : ℤ) := by
  obtain ⟨e, si, sf0, w, hA, hE1, hE2, hSI1, hSI2, hSF1, hSF2, hu, htr⟩ :=
    genUfloatRange_run h
  have hcapmin := ufloatParts_caps mn expBits signifBits hsb
  have hcapmax := ufloatParts_caps mx expBits signifBits hsb
  have hminr : -1022 ≤ (ufloatParts mn expBits signifBits).1 ∧
      (ufloatParts mn expBits signifBits).1 ≤ 1023 := by
    rw [ufloatParts_fst]; exact ufpExp_range mn h2eb h11
  have hmaxr : -1022 ≤ (ufloatParts mx expBits signifBits).1 ∧
      (ufloatParts mx expBits signifBits).1 ≤ 1023 := by
    rw [ufloatParts_fst]; exact ufpExp_range mx h2eb h11
  have hmaxb : (ufloatParts mx expBits signifBits).1 ≤
      ((bitmask64 (expBits - 1) : ℕ) : ℤ) := by
    rw [ufloatParts_fst]; exact (ufpExp_bounds mx h2eb).2
  have he1 : -1022 ≤ e := le_trans hminr.1 hE1
  have he2 : e ≤ 1023 := le_trans hE2 hmaxr.2
  have hsiS := siBounds_spec hcapmin hcapmax hE1 hE2 hSI1 hSI2
  set sfF := shiftLoop
    (sfBounds (ufloatParts mn expBits signifBits) (ufloatParts mx expBits signifBits)
      e si (ufloatFracBits e signifBits)).1
    (sfBounds (ufloatParts mn expBits signifBits) (ufloatParts mx expBits signifBits)
      e si (ufloatFracBits e signifBits)).2
    (ufloatFracBits e signifBits - w) sf0 with hsfF
  have hsfloop := (shiftLoop_props (ufloatFracBits e signifBits - w) _ _ sf0 hSF1 hSF2).1
  rw [← hsfF] at hsfloop
  have hsfS := sfBounds_spec hcapmin hcapmax hE1 hE2 hsfloop.1 hsfloop.2
  have hfble := ufloatFracBits_le e signifBits
  have hcapd : partsCaps signifBits (e, si, sfF) := ⟨hsiS.1, hsfS.1⟩
  obtain ⟨hval, hlt63⟩ :=
    f64Val_ufloatAssemble he1 he2 hfble hsb hsiS.1 hsfS.1
  rw [hu]
  have hvald : f64Val (ufloatAssemble e si sfF (ufloatFracBits e signifBits) signifBits) =
      partsVal signifBits (e, si, sfF) := by
    rw [hval, partsVal_eq]
  have hlexmin : partsLe (ufloatParts mn expBits signifBits) (e, si, sfF) := by
    unfold partsLe
    dsimp only
    rcases eq_or_lt_of_le hE1 with heq | hlt
    · right
      refine ⟨heq, ?_⟩
      rcases eq_or_lt_of_le (hsiS.2.1 heq.symm) with hsieq | hsilt
      · right
        exact ⟨hsieq, hsfS.2.1 heq.symm hsieq.symm⟩
      · left
        exact hsilt
    · left
      exact hlt
  have hlexmax : partsLe (e, si, sfF) (ufloatParts mx expBits signifBits) := by
    unfold partsLe
    dsimp only
    rcases eq_or_lt_of_le hE2 with heq | hlt
    · right
      refine ⟨heq, ?_⟩
      rcases eq_or_lt_of_le (hsiS.2.2 heq) with hsieq | hsilt
      · right
        exact ⟨hsieq, hsfS.2.2 heq hsieq⟩
      · left
        exact hsilt
    · left
      exact hlt
  refine ⟨?_, ?_, ?_, hlt63, ?_⟩
  · rw [hvald]
    exact partsVal_le_of_partsLe hsb hcapmin hcapd hminr.1 he1 hlexmin
  · rw [hvald]
    exact partsVal_le_of_partsLe hsb hcapd hcapmax he1 hmaxr.1 hlexmax
  · rw [hval]
    positivity
  · rw [hval]
    rw [Int.ofNat_le]
    have hm := packed_mantissa_lt hfble hsb hsiS.1 hsfS.1
    have hC : 1 ≤ 2 ^ (52 - signifBits) := Nat.one_le_two_pow
    have hN : 2 ^ 52 + (si * 2 ^ ufloatFracBits e signifBits + sfF) *
        2 ^ (52 - signifBits) ≤ 2 ^ 53 - 2 ^ (52 - signifBits) := by
      have hle52 : 2 ^ (52 - signifBits) ≤ 2 ^ 52 :=
        Nat.pow_le_pow_right (by norm_num) (by omega)
      have hadd := Nat.add_le_add_left hm (2 ^ 52)
      have hc : 2 ^ 52 + (2 ^ 52 - 2 ^ (52 - signifBits)) =
          2 ^ 53 - 2 ^ (52 - signifBits) := by omega
      rw [hc] at hadd
      exact hadd
    have hEb : (e + 1022).toNat ≤ (bitmask64 (expBits - 1) : ℕ) + 1022 := by
      have := le_trans hE2 hmaxb
      omega
    exact Nat.mul_le_mul hN (Nat.pow_le_pow_right (by norm_num) hEb)

/-! ## The branches of genFloatRange -/

/-- Every successful draw of `genFloatRange` comes from a `genUfloatRange` call
on the sub-range selected by the sign coin, negated when the coin chose the
negative side. -/
lemma genFloatRange_run {log1p : ℚ → ℚ} {s : BitStream}
    {mn mx expBits signifBits u : ℕ} {s' : BitStream}
    (h : genFloatRange log1p s mn mx expBits signifBits = some (u, s')) :
    ∃ (v : ℕ) (s2 : BitStream),
      ((genUfloatRange (flipBiasedCoin s (floatSignParams log1p mn mx).2.2).2
          (floatSignParams log1p mn mx).2.1 (f64Neg mn) expBits signifBits
          = some (v, s2) ∧ u = f64Neg v ∧
          (flipBiasedCoin s (floatSignParams log1p mn mx).2.2).1 = true) ∨
       (genUfloatRange (flipBiasedCoin s (floatSignParams log1p mn mx).2.2).2
          (floatSignParams log1p mn mx).1 mx expBits signifBits
          = some (v, s2) ∧ u = v ∧
          (flipBiasedCoin s (floatSignParams log1p mn mx).2.2).1 = false)) := by
  unfold genFloatRange at h
  dsimp only at h
  by_cases hb : (flipBiasedCoin s (floatSignParams log1p mn mx).2.2).1 = true
  · rw [if_pos hb] at h
    split at h
    · exact Option.noConfusion h
    · rename_i us hG
      injection h with h2
      rw [Prod.mk.injEq] at h2
      exact ⟨us.1, us.2, Or.inl ⟨hG, h2.1.symm, hb⟩⟩
  · rw [if_neg hb] at h
    have hbf : (flipBiasedCoin s (floatSignParams log1p mn mx).2.2).1 = false := by
      simpa using hb
    exact ⟨u, s', Or.inr ⟨h, rfl, hbf⟩⟩

/-- Magnitude bound for every draw of `genFloatRange`, with no assumption on
the bounds: the absolute value never exceeds the largest magnitude expressible
at the given widths. -/
lemma genFloatRange_magnitude {log1p : ℚ → ℚ} {s : BitStream}
    {mn mx expBits signifBits u : ℕ} {s' : BitStream}
    (h2eb : 2 ≤ expBits) (h11 : expBits ≤ 11) (hsb : signifBits ≤ 52)
    (h : genFloatRange log1p s mn mx expBits signifBits = some (u, s')) :
    |f64Val u| ≤ (((2 ^ 53 - 2 ^ (52 - signifBits)) *
      2 ^ ((bitmask64 (expBits - 1) : ℕ) + 1022) : ℕ) : ℤ) := by
  obtain ⟨v, s2, hbr⟩ := genFloatRange_run h
  rcases hbr with ⟨hG, hu, -⟩ | ⟨hG, hu, -⟩
  · obtain ⟨-, -, hpos, hlt63, hmag⟩ := genUfloatRange_bounds h2eb h11 hsb hG
    rw [hu, f64Val_neg v (lt_trans hlt63 (by norm_num)), abs_neg, abs_of_pos hpos]
    exact hmag
  · obtain ⟨-, -, hpos, hlt63, hmag⟩ := genUfloatRange_bounds h2eb h11 hsb hG
    rw [hu, abs_of_pos hpos]
    exact hmag

/-- Value bounds for every draw of `genFloatRange`, for bounds whose
decomposition round-trips exactly through `ufloatParts`. -/
lemma genFloatRange_val_bounds (log1p : ℚ → ℚ) {s : BitStream}
    {mn mx expBits signifBits u : ℕ} {s' : BitStream}
    (h2eb : 2 ≤ expBits) (h11 : expBits ≤ 11) (hsb : signifBits ≤ 52)
    (hmn64 : mn < 2 ^ 64) (hmx64 : mx < 2 ^ 64)
    (hn1 : f64IsNaN mn = false) (hn2 : f64IsNaN mx = false)
    (hle : f64Val mn ≤ f64Val mx)
    (hrt1 : partsVal signifBits (ufloatParts mn expBits signifBits) = |f64Val mn|)
    (hrt2 : partsVal signifBits (ufloatParts mx expBits signifBits) = |f64Val mx|)
    (h : genFloatRange log1p s mn mx expBits signifBits = some (u, s')) :
    f64Val mn ≤ f64Val u ∧ f64Val u ≤ f64Val mx := by
  obtain ⟨v, s2, hbr⟩ := genFloatRange_run h
  by_cases hb1 : f64le f64zero mn = true
  · -- min ≥ 0: pNeg = 0 and the coin always picks the positive sub-range
    have hp : floatSignParams log1p mn mx = (mn, f64zero, 0) := by
      simp [floatSignParams, hb1]
    have hmn0 : 0 ≤ f64Val mn := by
      have := (f64le_iff.mp hb1).2.2
      rwa [f64Val_zero] at this
    rcases hbr with ⟨-, -, hcoin⟩ | ⟨hG, hu, -⟩
    · rw [hp] at hcoin
      dsimp only at hcoin
      rw [show flipBiasedCoin s 0 = (false, s) from by norm_num [flipBiasedCoin]] at hcoin
      exact Bool.noConfusion hcoin
    · rw [hp] at hG
      dsimp only at hG
      obtain ⟨hlo, hhi, -, -, -⟩ := genUfloatRange_bounds h2eb h11 hsb hG
      rw [hrt1, abs_of_nonneg hmn0] at hlo
      rw [hrt2, abs_of_nonneg (le_trans hmn0 hle)] at hhi
      rw [hu]
      exact ⟨hlo, hhi⟩
  · have hb1f : f64le f64zero mn = false := by simpa using hb1
    have hmnneg : f64Val mn < 0 := by
      have := f64le_false f64IsNaN_zero hn1 hb1f
      rwa [f64Val_zero] at this
    by_cases hb2 : f64le mx f64zero = true
    · -- max ≤ 0: pNeg = 1 and the coin always picks the negated sub-range
      have hp : floatSignParams log1p mn mx = (f64zero, f64Neg mx, 1) := by
        simp [floatSignParams, hb1f, hb2]
      have hmx0 : f64Val mx ≤ 0 := by
        have := (f64le_iff.mp hb2).2.2
        rwa [f64Val_zero] at this
      rcases hbr with ⟨hG, hu, -⟩ | ⟨-, -, hcoin⟩
      · rw [hp] at hG
        dsimp only at hG
        obtain ⟨hlo, hhi, -, hlt63, -⟩ := genUfloatRange_bounds h2eb h11 hsb hG
        rw [ufloatParts_f64Neg mx expBits signifBits hmx64, hrt2,
          abs_of_nonpos hmx0] at hlo
        rw [ufloatParts_f64Neg mn expBits signifBits hmn64, hrt1,
          abs_of_neg hmnneg] at hhi
        rw [hu, f64Val_neg v (lt_trans hlt63 (by norm_num))]
        omega
      · rw [hp] at hcoin
        dsimp only at hcoin
        rw [show flipBiasedCoin s 1 = (true, s) from by norm_num [flipBiasedCoin]] at hcoin
        exact Bool.noConfusion hcoin
    · -- the range crosses zero: both coin outcomes stay inside [min, max]
      have hb2f : f64le mx f64zero = false := by simpa using hb2
      have hmxpos : 0 < f64Val mx := by
        have := f64le_false hn2 f64IsNaN_zero hb2f
        rwa [f64Val_zero] at this
      have hp : floatSignParams log1p mn mx =
          (f64zero, f64zero,
            log1p (log1p (f64Val (f64Neg mn))) /
              (log1p (log1p (f64Val (f64Neg mn))) + log1p (log1p (f64Val mx)))) := by
        simp [floatSignParams, hb1f, hb2f]
      rcases hbr with ⟨hG, hu, -⟩ | ⟨hG, hu, -⟩
      · rw [hp] at hG
        dsimp only at hG
        obtain ⟨-, hhi, hpos, hlt63, -⟩ := genUfloatRange_bounds h2eb h11 hsb hG
        rw [ufloatParts_f64Neg mn expBits signifBits hmn64, hrt1,
          abs_of_neg hmnneg] at hhi
        rw [hu, f64Val_neg v (lt_trans hlt63 (by norm_num))]
        omega
      · rw [hp] at hG
        dsimp only at hG
        obtain ⟨-, hhi, hpos, -, -⟩ := genUfloatRange_bounds h2eb h11 hsb hG
        rw [hrt2, abs_of_pos hmxpos] at hhi
        rw [hu]
        omega

/-! ## C1: range soundness of genFloatRange -/

/-- C1 as stated is false: for `min = max = 0` (non-NaN, `min ≤ max`) every
draw returns the smallest normal float `2 ^ (-1022)` (bit pattern `2 ^ 52`),
which is strictly greater than `max`, because `ufloatParts` clamps the
exponent of `0` out of the subnormal band. -/
theorem genFloatRange_zero_range_escapes :
    f64IsNaN f64zero = false ∧ f64Val f64zero ≤ f64Val f64zero ∧
    (genFloatRange l0 st0 f64zero f64zero 11 52).map (fun p => p.1) = some (2 ^ 52) ∧
    ¬ f64Val (2 ^ 52) ≤ f64Val f64zero :=
  ⟨by decide, le_refl _, by with_unfolding_all rfl, by decide⟩

/-- C1 (amended): for every pair of non-NaN bounds with `min ≤ max` whose
magnitudes are represented exactly by `ufloatParts` at the given widths
(reassembling the decomposition gives back `|bound|` — which excludes `0`,
subnormals, and bounds needing more exponent range or significand precision
than the target width offers), every value returned by `genFloatRange`
satisfies `min ≤ v ≤ max`. -/
theorem genFloatRange_inRange_of_exact (log1p : ℚ → ℚ) (s : BitStream)
    (mn mx expBits signifBits u : ℕ) (s' : BitStream)
    (h2eb : 2 ≤ expBits) (h11 : expBits ≤ 11) (hsb : signifBits ≤ 52)
    (hmn64 : mn < 2 ^ 64) (hmx64 : mx < 2 ^ 64)
    (hn1 : f64IsNaN mn = false) (hn2 : f64IsNaN mx = false)
    (hle : f64Val mn ≤ f64Val mx)
    (hrt1 : partsVal signifBits (ufloatParts mn expBits signifBits) = |f64Val mn|)
    (hrt2 : partsVal signifBits (ufloatParts mx expBits signifBits) = |f64Val mx|)
    (h : genFloatRange log1p s mn mx expBits signifBits = some (u, s')) :
    f64Val mn ≤ f64Val u ∧ f64Val u ≤ f64Val mx :=
  genFloatRange_val_bounds log1p h2eb h11 hsb hmn64 hmx64 hn1 hn2 hle hrt1 hrt2 h

theorem genFloatRange_inRange_of_exact_witness :
    partsVal 52 (ufloatParts oneBits 11 52) = |f64Val oneBits| ∧
    (f64Val oneBits ≤ f64Val oneBits ∧ f64Val oneBits ≤ f64Val oneBits) :=
  ⟨by decide,
   genFloatRange_inRange_of_exact l0 st0 oneBits oneBits 11 52 oneBits
     ⟨tape0, 4,
      [BSEvent.begin floatExpLabel 0 false, BSEvent.draw 0, BSEvent.close 0 false,
       BSEvent.begin floatSignifLabel 3 false, BSEvent.draw 0, BSEvent.draw 0,
       BSEvent.draw 0, BSEvent.close 3 false]⟩
     (by decide) (by decide) (by decide) (by decide) (by decide) (by decide)
     (by decide) (le_refl _) (by decide) (by decide) (by with_unfolding_all rfl)⟩

/-! ## C3: the degenerate range -/

/-- C3 as stated is false: `min = max = 0` is non-NaN, yet the draw returns
the value `2 ^ (-1022)` (bit pattern `2 ^ 52`), not `0`. -/
theorem genFloatRange_zero_not_constant :
    f64IsNaN f64zero = false ∧
    (genFloatRange l0 st0 f64zero f64zero 11 52).map (fun p => p.1) = some (2 ^ 52) ∧
    f64Val (2 ^ 52) ≠ f64Val f64zero :=
  ⟨by decide, by with_unfolding_all rfl, by decide⟩

/-- C3 (amended): for every non-NaN `x` whose magnitude is represented
exactly by `ufloatParts` at the given widths, every draw from the range
generator with `min = max = x` returns exactly `x` (as a value; excluded are
`0`, subnormals and `x` needing more range or precision than the width
offers, which are canonicalized to a different nearby value). -/
theorem genFloatRange_const_of_exact (log1p : ℚ → ℚ) (s : BitStream)
    (x expBits signifBits u : ℕ) (s' : BitStream)
    (h2eb : 2 ≤ expBits) (h11 : expBits ≤ 11) (hsb : signifBits ≤ 52)
    (hx64 : x < 2 ^ 64) (hn : f64IsNaN x = false)
    (hrt : partsVal signifBits (ufloatParts x expBits signifBits) = |f64Val x|)
    (h : genFloatRange log1p s x x expBits signifBits = some (u, s')) :
    f64Val u = f64Val x := by
  obtain ⟨hlo, hhi⟩ := genFloatRange_val_bounds log1p h2eb h11 hsb hx64 hx64
    hn hn (le_refl _) hrt hrt h
  omega

theorem genFloatRange_const_of_exact_witness :
    partsVal 52 (ufloatParts oneBits 11 52) = |f64Val oneBits| ∧
    f64Val oneBits = f64Val oneBits :=
  ⟨by decide,
   genFloatRange_const_of_exact l0 st0 oneBits 11 52 oneBits
     ⟨tape0, 4,
      [BSEvent.begin floatExpLabel 0 false, BSEvent.draw 0, BSEvent.close 0 false,
       BSEvent.begin floatSignifLabel 3 false, BSEvent.draw 0, BSEvent.draw 0,
       BSEvent.draw 0, BSEvent.close 3 false]⟩
     (by decide) (by decide) (by decide) (by decide) (by decide) (by decide)
     (by with_unfolding_all rfl)⟩

/-! ## C5: exponent clamping and the float32 representable range -/

/-- C5: `ufloatParts` clamps the extracted exponent to
`[-(2^(expBits-1) - 1) + 1, 2^(expBits-1) - 1]`, excluding the subnormal band
below and the Inf/NaN band above; consequently every value produced by
`genFloatRange` at the float32 widths (`expBits = 8`, `signifBits = 23`) has
magnitude at most `MaxFloat32` (the value of `f32ToF64 maxFloat32Bits`,
namely `(2^24 - 1) * 2^104`), so converting the drawn float64 to float32
never overflows. -/
theorem ufloatParts_clamp_and_float32_range :
    (∀ f expBits signifBits : ℕ, 2 ≤ expBits →
      -((bitmask64 (expBits - 1) : ℕ) : ℤ) + 1 ≤ (ufloatParts f expBits signifBits).1 ∧
      (ufloatParts f expBits signifBits).1 ≤ ((bitmask64 (expBits - 1) : ℕ) : ℤ)) ∧
    (∀ (log1p : ℚ → ℚ) (s : BitStream) (mn mx u : ℕ) (s' : BitStream),
      genFloatRange log1p s mn mx 8 23 = some (u, s') →
      |f64Val u| ≤ f64Val (f32ToF64 maxFloat32Bits)) := by
  constructor
  · intro f expBits signifBits h2
    rw [ufloatParts_fst]
    exact ufpExp_bounds f h2
  · intro log1p s mn mx u s' h
    have hmag := genFloatRange_magnitude (by norm_num) (by norm_num) (by norm_num) h
    calc |f64Val u| ≤ (((2 ^ 53 - 2 ^ (52 - 23)) *
          2 ^ ((bitmask64 (8 - 1) : ℕ) + 1022) : ℕ) : ℤ) := hmag
      _ = f64Val (f32ToF64 maxFloat32Bits) := by decide

theorem ufloatParts_clamp_and_float32_range_witness :
    (-((bitmask64 (11 - 1) : ℕ) : ℤ) + 1 ≤ (ufloatParts f64zero 11 52).1 ∧
      (ufloatParts f64zero 11 52).1 ≤ ((bitmask64 (11 - 1) : ℕ) : ℤ)) ∧
    |f64Val (897 * 2 ^ 52)| ≤ f64Val (f32ToF64 maxFloat32Bits) :=
  ⟨ufloatParts_clamp_and_float32_range.1 f64zero 11 52 (by decide),
   ufloatParts_clamp_and_float32_range.2 l0 st0 f64zero oneBits (897 * 2 ^ 52)
     ⟨tape0, 4,
      [BSEvent.begin floatExpLabel 0 false, BSEvent.draw 0, BSEvent.close 0 false,
       BSEvent.begin floatSignifLabel 3 false, BSEvent.draw 0, BSEvent.draw 0,
       BSEvent.draw 0, BSEvent.close 3 false]⟩
     (by with_unfolding_all rfl)⟩

end Rapid
